import Mathlib

/-!
Verification of the FROST-BIP340 participant core (`src/src/frost/participant.py`)
against its natural-language specification.

The participant module is translated statement by statement into Lean
definitions.  The repository's collaborator modules (`point.py`,
`constants.py`, `aggregator.py`) are not part of the sources; following the
specification, the curve is the cyclic group of prime order `Q` generated by
`G` (secp256k1), which we embed through its discrete-log model (`ZMod Q`),
while the coordinate-dependent operations (SEC serialization feeding SHA-256,
parity of the affine y-coordinate) and the aggregator's hash computations are
kept abstract and passed as explicit function arguments.  Randomness
(`secrets.randbits(256)`) is made explicit: each method that samples receives
the sampled raw values as an input stream `rand : Nat -> Nat`.
-/

namespace Frost

/-- Modelled from the spec: `constants.py` is not under `src/`; the spec fixes
`Q` to be the order of the secp256k1 group ("Q = order of secp256k1"). -/
def Q : ℕ := 115792089237316195423570985008687907852837564279074904382605163141518161494337

theorem Q_pos : 0 < Q := by decide

instance : NeZero Q := ⟨by decide⟩

/-- Modelled from the spec: the curve collaborator `point.py` is not under
`src/`.  The spec's curve primitive is a cyclic group of prime order `Q`
generated by `G`; we use its discrete-log model: a point is represented by its
scalar with respect to `G`, i.e. an element of `ZMod Q`, the identity (point at
infinity) being `0`. -/
abbrev Point : Type := ZMod Q

/-- The curve generator, in discrete-log representation. -/
def G : Point := 1

/-- Scalar multiplication `k * P` of the Python `Point` class.  The group has
order `Q`, so multiplication by an arbitrary integer scalar factors through
`ZMod Q`; in the discrete-log model it is ring multiplication. -/
def ptMul (k : ℤ) (P : Point) : Point := (k : Point) * P

/-- Exceptions raised by `participant.py`, one constructor per distinct raise
condition reached by the modelled methods. -/
inductive Err
  | coefficientsUninit
  | thresholdNotGreater
  | duplicateIndexes
  | sharesUninit
  | aggregateShareUninit
  | noncePairUninit
  | publicKeyUninit
  | publicKeyInfinity
  | groupCommitmentInfinity
  | indexError
deriving DecidableEq

/-- Classification of the raise conditions following the spec's error
taxonomy (section 7): state preconditions ("operation called before its
phase") together with the degenerate identity conditions during signing (which
the spec files under precondition violations) are precondition errors;
duplicate indices, out-of-range list indices and a non-increasing new
threshold are argument-validation errors. -/
def Err.isPrecond : Err → Bool
  | .coefficientsUninit => true
  | .sharesUninit => true
  | .aggregateShareUninit => true
  | .noncePairUninit => true
  | .publicKeyUninit => true
  | .publicKeyInfinity => true
  | .groupCommitmentInfinity => true
  | .thresholdNotGreater => false
  | .duplicateIndexes => false
  | .indexError => false

/-- Binary modular exponentiation, the model of Python's three-argument
`pow(base, exp, mod)` (the source uses `pow(denominator, Q - 2, Q)`).  An
explicit fuel argument keeps the recursion structural (and hence directly
kernel-reducible); `powMod` supplies ample fuel. -/
def powModAux : ℕ → ℤ → ℕ → ℤ → ℤ
  | 0, _, _, m => 1 % m
  | fuel + 1, b, e, m =>
    if e = 0 then 1 % m
    else
      let h := powModAux fuel ((b * b) % m) (e / 2) m
      if e % 2 = 1 then (h * b) % m else h

/-- Python `pow(b, e, m)`: the fixed fuel `257` is enough for every exponent
below `2 ^ 257` and in particular for `Q - 2`, the only exponent the source
passes to the three-argument `pow`. -/
def powMod (b : ℤ) (e : ℕ) (m : ℤ) : ℤ := powModAux 257 b e m

theorem int_pow_emod (a : ℤ) (n : ℕ) (m : ℤ) : (a % m) ^ n % m = a ^ n % m := by
  induction n with
  | zero => simp
  | succ k ih =>
    rw [pow_succ, pow_succ, Int.mul_emod, ih, Int.emod_emod_of_dvd _ (dvd_refl m),
      ← Int.mul_emod]

theorem powModAux_eq (fuel : ℕ) : ∀ (b : ℤ) (e : ℕ) (m : ℤ), e < 2 ^ fuel → 0 < m →
    powModAux fuel b e m = b ^ e % m := by
  induction fuel with
  | zero =>
    intro b e m he _
    have he0 : e = 0 := by simpa using Nat.lt_one_iff.mp (by simpa using he)
    subst he0; simp [powModAux]
  | succ fuel ih =>
    intro b e m he hm
    by_cases h0 : e = 0
    · subst h0; simp [powModAux]
    · have he2 : e / 2 < 2 ^ fuel := by
        rw [Nat.div_lt_iff_lt_mul (by norm_num : 0 < 2)]
        calc e < 2 ^ (fuel + 1) := he
          _ = 2 ^ fuel * 2 := by rw [pow_succ]
      have hrec := ih ((b * b) % m) (e / 2) m he2 hm
      have hkey : powModAux fuel ((b * b) % m) (e / 2) m = b ^ (2 * (e / 2)) % m := by
        rw [hrec, int_pow_emod, ← pow_two, ← pow_mul]
      simp only [powModAux, if_neg h0, hkey]
      rcases Nat.mod_two_eq_zero_or_one e with hpar | hpar
      · have he' : 2 * (e / 2) = e := by omega
        rw [if_neg (by omega), he']
      · have he' : 2 * (e / 2) + 1 = e := by omega
        rw [if_pos hpar, Int.mul_emod, Int.emod_emod_of_dvd _ (dvd_refl m),
          ← Int.mul_emod, ← pow_succ, he']

theorem powMod_eq (b : ℤ) (e : ℕ) (m : ℤ) (he : e < 2 ^ 257) (hm : 0 < m) :
    powMod b e m = b ^ e % m :=
  powModAux_eq 257 b e m he hm

/-- The participant state: one field per attribute assigned in
`Participant.__init__` (participant.py lines 46-67).  Python byte strings are
modelled as lists of naturals; `partial_signature_s_ij` is renamed to
`part_sig_s_ij`. -/
structure Participant where
  index : ℤ
  threshold : ℤ
  participants : ℤ
  coefficients : Option (List ℤ)
  coefficient_commitments : Option (List Point)
  proof_of_knowledge : Option (Point × ℤ)
  shares : Option (List ℤ)
  aggregate_share : Option ℤ
  nonce_pair : Option (ℤ × ℤ)
  nonce_commitment_pair : Option (Point × Point)
  public_key : Option Point
  repair_shares : Option (List ℤ)
  aggregate_repair_share : Option ℤ
  nonce_pair_r_ij : Option (ℤ × Point)
  nonce_R_ij_commitments : List (List ℕ)
  nonce_R_ij : List Point
  aggregate_nonce_R_i : Option Point
  challenge_hash_c : Option (List ℕ)
  participant_a_i : Option ℤ
  agg_pk : Option Point
  part_sig_s_ij : Option ℤ
deriving DecidableEq

instance {ε α : Type} [DecidableEq ε] [DecidableEq α] : DecidableEq (Except ε α)
  | .error e, .error f =>
    if h : e = f then .isTrue (congrArg Except.error h)
    else .isFalse (fun hx => h (Except.error.inj hx))
  | .error _, .ok _ => .isFalse (fun hx => Except.noConfusion hx)
  | .ok _, .error _ => .isFalse (fun hx => Except.noConfusion hx)
  | .ok a, .ok b =>
    if h : a = b then .isTrue (congrArg Except.ok h)
    else .isFalse (fun hx => h (Except.ok.inj hx))

/-- Python tuple indexing `l[i]`: non-negative indices address from the front,
negative indices address from the back, anything else raises `IndexError`. -/
def pyGet (l : List ℤ) (i : ℤ) : Except Err ℤ :=
  if h : 0 ≤ i ∧ i < (l.length : ℤ) then .ok (l.get ⟨i.toNat, by omega⟩)
  else if h' : -(l.length : ℤ) ≤ i ∧ i < 0 then
    .ok (l.get ⟨((l.length : ℤ) + i).toNat, by omega⟩)
  else .error .indexError

namespace Participant

/-- Constructor `Participant.__init__`.  The only validation in the source is
`isinstance(arg, int)` on the three arguments; for integer-typed arguments that
check always passes, so construction always succeeds here and no further range
validation is performed (there is none in the source). -/
def init (index threshold participants : ℤ) : Except Err Participant :=
  .ok
    { index := index
      threshold := threshold
      participants := participants
      coefficients := none
      coefficient_commitments := none
      proof_of_knowledge := none
      shares := none
      aggregate_share := none
      nonce_pair := none
      nonce_commitment_pair := none
      public_key := none
      repair_shares := none
      aggregate_repair_share := none
      nonce_pair_r_ij := none
      nonce_R_ij_commitments := []
      nonce_R_ij := []
      aggregate_nonce_R_i := none
      challenge_hash_c := none
      participant_a_i := none
      agg_pk := none
      part_sig_s_ij := none }

/-- `Participant._generate_polynomial`: `threshold` coefficients, each a fresh
256-bit draw reduced modulo `Q` (`rand` is the stream of raw draws). -/
def generate_polynomial (rand : ℕ → ℕ) (P : Participant) : Participant :=
  { P with
      coefficients :=
        some ((List.range P.threshold.toNat).map fun j => ((rand j : ℤ) % (Q : ℤ))) }

/-- `Participant._generate_refresh_polynomial`: first coefficient fixed to `0`,
followed by `threshold - 1` fresh draws reduced modulo `Q`. -/
def generate_refresh_polynomial (rand : ℕ → ℕ) (P : Participant) : Participant :=
  { P with
      coefficients :=
        some (0 :: (List.range (P.threshold - 1).toNat).map
          fun j => ((rand j : ℤ) % (Q : ℤ))) }

/-- `Participant._generate_threshold_increase_polynomial`: `new_threshold - 1`
fresh draws reduced modulo `Q`. -/
def generate_threshold_increase_polynomial (rand : ℕ → ℕ) (new_threshold : ℤ)
    (P : Participant) : Participant :=
  { P with
      coefficients :=
        some ((List.range (new_threshold - 1).toNat).map
          fun j => ((rand j : ℤ) % (Q : ℤ))) }

/-- `Participant._compute_proof_of_knowledge`.  `challenge` abstracts the
SHA-256 challenge `int.from_bytes(H(index_byte, CONTEXT, SEC(secret_commitment),
SEC(nonce_commitment)))` as a function of the participant index and the two
points (the byte-level encoding lives in the external collaborators).  The
Python falsiness test `if not self.coefficients` fails on both an unset and an
empty coefficient tuple. -/
def compute_proof_of_knowledge (challenge : ℤ → Point → Point → ℕ) (randNonce : ℕ)
    (P : Participant) : Except Err Participant :=
  match P.coefficients with
  | none => .error .coefficientsUninit
  | some [] => .error .coefficientsUninit
  | some (secret :: _restCoeffs) =>
    let nonce : ℤ := (randNonce : ℤ) % (Q : ℤ)
    let nonce_commitment : Point := ptMul nonce G
    let secret_commitment : Point := ptMul secret G
    let challenge_hash_int : ℕ := challenge P.index secret_commitment nonce_commitment
    let s : ℤ := (nonce + secret * (challenge_hash_int : ℤ)) % (Q : ℤ)
    .ok { P with proof_of_knowledge := some (nonce_commitment, s) }

/-- `Participant._compute_coefficient_commitments`: one commitment
`coefficient * G` per coefficient. -/
def compute_coefficient_commitments (P : Participant) : Except Err Participant :=
  match P.coefficients with
  | none => .error .coefficientsUninit
  | some [] => .error .coefficientsUninit
  | some (c0 :: rest) =>
    .ok { P with coefficient_commitments := some ((c0 :: rest).map fun c => ptMul c G) }

/-- `Participant.verify_proof_of_knowledge`.  The arity and `isinstance` checks
of the source are enforced by the types of the embedding; `challenge` is the
same abstract challenge function used by `compute_proof_of_knowledge` (the
source recomputes the identical SHA-256 over the identical bytes). -/
def verify_proof_of_knowledge (challenge : ℤ → Point → Point → ℕ)
    (proof : Point × ℤ) (secret_commitment : Point) (index : ℤ) : Bool :=
  let nonce_commitment := proof.1
  let s := proof.2
  let challenge_hash_int : ℕ := challenge index secret_commitment nonce_commitment
  let expected_nonce_commitment : Point :=
    ptMul s G + ptMul ((Q : ℤ) - (challenge_hash_int : ℤ)) secret_commitment
  decide (nonce_commitment = expected_nonce_commitment)

/-- `Participant.init_keygen`: generate the polynomial, compute the proof of
knowledge, compute the coefficient commitments. -/
def init_keygen (rand : ℕ → ℕ) (randNonce : ℕ) (challenge : ℤ → Point → Point → ℕ)
    (P : Participant) : Except Err Participant :=
  match compute_proof_of_knowledge challenge randNonce (generate_polynomial rand P) with
  | .error e => .error e
  | .ok P2 => compute_coefficient_commitments P2

/-- `Participant.init_refresh`: generate the refresh polynomial and compute the
coefficient commitments. -/
def init_refresh (rand : ℕ → ℕ) (P : Participant) : Except Err Participant :=
  compute_coefficient_commitments (generate_refresh_polynomial rand P)

/-- `Participant.init_threshold_increase`: reject a non-increasing new
threshold, generate the threshold-increase polynomial, compute the proof of
knowledge and the commitments, and only then store the new threshold. -/
def init_threshold_increase (rand : ℕ → ℕ) (randNonce : ℕ)
    (challenge : ℤ → Point → Point → ℕ) (new_threshold : ℤ)
    (P : Participant) : Except Err Participant :=
  if new_threshold ≤ P.threshold then .error .thresholdNotGreater
  else
    match compute_proof_of_knowledge challenge randNonce
        (generate_threshold_increase_polynomial rand new_threshold P) with
    | .error e => .error e
    | .ok P2 =>
      match compute_coefficient_commitments P2 with
      | .error e => .error e
      | .ok P3 => .ok { P3 with threshold := new_threshold }

/-- `Participant._lagrange_coefficient`.  The source rejects when
`len(participant_indexes) != len(set(participant_indexes))`, i.e. exactly when
the tuple has a duplicate; it then accumulates the numerator and denominator
products over all indices different from `self.index` and inverts the
denominator once via `pow(denominator, Q - 2, Q)`. -/
def lagrange_coefficient (selfIndex : ℤ) (participant_indexes : List ℤ) (x : ℤ) :
    Except Err ℤ :=
  if participant_indexes.Nodup then
    let nd := participant_indexes.foldl
      (fun (nd : ℤ × ℤ) idx =>
        if idx = selfIndex then nd else (nd.1 * (x - idx), nd.2 * (selfIndex - idx)))
      (1, 1)
    .ok ((nd.1 * powMod nd.2 (Q - 2) (Q : ℤ)) % (Q : ℤ))
  else .error .duplicateIndexes

/-- `Participant.generate_repair_shares`: requires the aggregate share to be
set (`is None` test), computes the Lagrange coefficient of `self.index` over
the repair cohort at the lost participant's index, samples `threshold - 1`
masking scalars and closes the sum with the final share. -/
def generate_repair_shares (rand : ℕ → ℕ) (P : Participant)
    (repair_participants : List ℤ) (index : ℤ) : Except Err Participant :=
  match P.aggregate_share with
  | none => .error .aggregateShareUninit
  | some s =>
    match lagrange_coefficient P.index repair_participants index with
    | .error e => .error e
    | .ok lc =>
      let random_shares := (List.range (P.threshold - 1).toNat).map
        fun j => ((rand j : ℤ) % (Q : ℤ))
      let final_share := (lc * s - random_shares.sum) % (Q : ℤ)
      .ok { P with repair_shares := some (random_shares ++ [final_share]) }

/-- `Participant.increase_threshold`.  The source guards with the Python
falsiness tests `if not self.shares` (unset or empty) and
`if not self.aggregate_share` (unset or the field element `0`), then updates
`self.aggregate_share += (aggregate_share * self.index) % Q` with no outer
reduction. -/
def increase_threshold (P : Participant) (other_shares : List ℤ) :
    Except Err Participant :=
  match P.shares with
  | none => .error .sharesUninit
  | some [] => .error .sharesUninit
  | some (sh0 :: shRest) =>
    match P.aggregate_share with
    | none => .error .aggregateShareUninit
    | some s =>
      if s = 0 then .error .aggregateShareUninit
      else
        match pyGet (sh0 :: shRest) (P.index - 1) with
        | .error e => .error e
        | .ok v =>
          let aggregate_share := (v + other_shares.sum) % (Q : ℤ)
          .ok { P with aggregate_share := some (s + (aggregate_share * P.index) % (Q : ℤ)) }

/-- `Participant.sign`.  The aggregator collaborator (`aggregator.py`, not
under `src/`) is abstracted by the three hash functions `gc` (group
commitment), `ch` (BIP340 challenge) and `bv` (binding value), and `yOdd`
abstracts the parity test `point.y % 2 != 0` on the affine y-coordinate, none
of which are expressible in the discrete-log model.  The identity tests
`point.x is None or point.y is None` are the discrete-log-model tests against
`0`.  The method assigns no attribute of `self`; the untouched state is
returned alongside the partial signature. -/
def sign {Msg : Type} (gc : Msg → List (Point × Point) → List ℤ → Point)
    (ch : Point → Point → Msg → ℕ)
    (bv : ℤ → Msg → List (Point × Point) → List ℤ → ℤ)
    (yOdd : Point → Bool)
    (P : Participant) (message : Msg)
    (nonce_commitment_pairs : List (Point × Point))
    (participant_indexes : List ℤ) : Except Err (ℤ × Participant) :=
  match P.nonce_pair with
  | none => .error .noncePairUninit
  | some (d, e) =>
    match P.public_key with
    | none => .error .publicKeyUninit
    | some Y =>
      if Y = 0 then .error .publicKeyInfinity
      else
        match P.aggregate_share with
        | none => .error .aggregateShareUninit
        | some s =>
          let group_commitment := gc message nonce_commitment_pairs participant_indexes
          if group_commitment = 0 then .error .groupCommitmentInfinity
          else
            let challenge_hash := ch group_commitment Y message
            let nonces := if yOdd group_commitment then ((Q : ℤ) - d, (Q : ℤ) - e) else (d, e)
            let binding_value := bv P.index message nonce_commitment_pairs participant_indexes
            match lagrange_coefficient P.index participant_indexes 0 with
            | .error err => .error err
            | .ok lam =>
              let aggregate_share := if yOdd Y then (Q : ℤ) - s else s
              .ok
                ((nonces.1 + nonces.2 * binding_value
                    + lam * aggregate_share * (challenge_hash : ℤ)) % (Q : ℤ),
                  P)

end Participant

/-- Modelled from the spec (section 4.5) for refinement comparison: the
Lagrange coefficient formula, the product over every `p` in `S` different from
`i` of `(x - p) * (i - p)⁻¹ mod Q`, each inverse computed as
`denominator ^ (Q - 2) mod Q`. -/
def lagrangeFormula (i : ℤ) (S : List ℤ) (x : ℤ) : ℤ :=
  ((S.filter fun p => p ≠ i).map fun p => (x - p) * powMod (i - p) (Q - 2) (Q : ℤ)).prod
    % (Q : ℤ)

/-- The same product with no factor skipped, over every index of `S`. -/
def lagrangeFullProduct (i : ℤ) (S : List ℤ) (x : ℤ) : ℤ :=
  (S.map fun p => (x - p) * powMod (i - p) (Q - 2) (Q : ℤ)).prod % (Q : ℤ)

theorem intQ_pos : (0 : ℤ) < (Q : ℤ) := by exact_mod_cast Q_pos

theorem powModQ_eq (b : ℤ) : powMod b (Q - 2) (Q : ℤ) = b ^ (Q - 2) % (Q : ℤ) :=
  powMod_eq b (Q - 2) (Q : ℤ) (by norm_num [Q]) intQ_pos

theorem lagrange_foldl (i x : ℤ) : ∀ (S : List ℤ) (n d : ℤ),
    S.foldl (fun (nd : ℤ × ℤ) idx =>
      if idx = i then nd else (nd.1 * (x - idx), nd.2 * (i - idx))) (n, d)
    = (n * ((S.filter fun p => p ≠ i).map fun p => (x - p)).prod,
       d * ((S.filter fun p => p ≠ i).map fun p => (i - p)).prod) := by
  intro S
  induction S with
  | nil => intro n d; simp
  | cons a S ih =>
    intro n d
    by_cases ha : a = i
    · simpa [List.foldl_cons, ha] using ih n d
    · simp only [List.foldl_cons, if_neg ha, ih, List.filter_cons,
        decide_eq_true_eq, if_pos ha, List.map_cons, List.prod_cons]
      simp only [Prod.mk.injEq]
      constructor <;> ring

theorem list_prod_map_pow (g : ℤ → ℤ) (n : ℕ) : ∀ l : List ℤ,
    (l.map g).prod ^ n = (l.map fun a => g a ^ n).prod := by
  intro l
  induction l with
  | nil => simp
  | cons a t ih => simp [mul_pow, ih]

theorem prod_emod_inner (f h : ℤ → ℤ) : ∀ l : List ℤ,
    (l.map fun p => f p * (h p % (Q : ℤ))).prod % (Q : ℤ)
    = (l.map fun p => f p * h p).prod % (Q : ℤ) := by
  intro l
  induction l with
  | nil => simp
  | cons a t ih =>
    simp only [List.map_cons, List.prod_cons]
    rw [Int.mul_emod (f a * (h a % (Q : ℤ))), Int.mul_emod (f a) (h a % (Q : ℤ)),
      Int.emod_emod_of_dvd _ (dvd_refl _), ← Int.mul_emod (f a) (h a), ih,
      ← Int.mul_emod (f a * h a)]

theorem prod_mul_powMod (l : List ℤ) (f g : ℤ → ℤ) :
    ((l.map f).prod * powMod (l.map g).prod (Q - 2) (Q : ℤ)) % (Q : ℤ)
    = (l.map fun p => f p * powMod (g p) (Q - 2) (Q : ℤ)).prod % (Q : ℤ) := by
  simp only [powModQ_eq]
  rw [Int.mul_emod ((l.map f).prod), Int.emod_emod_of_dvd _ (dvd_refl _),
    ← Int.mul_emod, list_prod_map_pow, ← List.prod_map_mul,
    prod_emod_inner f (fun p => g p ^ (Q - 2)) l]

theorem lagrange_coefficient_eq (i x : ℤ) (S : List ℤ) (h : S.Nodup) :
    Participant.lagrange_coefficient i S x = .ok (lagrangeFormula i S x) := by
  unfold Participant.lagrange_coefficient
  rw [if_pos h]
  have hfold := lagrange_foldl i x S 1 1
  simp only [hfold, one_mul]
  unfold lagrangeFormula
  rw [prod_mul_powMod ((S.filter fun p => p ≠ i)) (fun p => x - p) (fun p => i - p)]

theorem length_filter_ne (i : ℤ) : ∀ S : List ℤ, S.Nodup → i ∈ S →
    (S.filter fun p => p ≠ i).length = S.length - 1 := by
  intro S
  induction S with
  | nil => simp
  | cons a t ih =>
    intro hnd hm
    have hnd' := List.nodup_cons.mp hnd
    rcases List.mem_cons.mp hm with rfl | hm'
    · simp [List.filter_cons]
      exact fun b hb he => hnd'.1 (he ▸ hb)
    · have ha : a ≠ i := fun he => hnd'.1 (he ▸ hm')
      have hpos := List.length_pos_of_mem hm'
      simp only [List.filter_cons, decide_eq_true_eq, if_pos ha, List.length_cons,
        ih hnd'.2 hm']
      omega

/-- Witness scaffolding: a freshly constructed participant with index 1,
threshold 1 and cohort size 2, and the degenerate stand-ins for the external
randomness and hash collaborators used to instantiate the theorems on concrete
inputs. -/
def P0 : Participant :=
  { index := 1
    threshold := 1
    participants := 2
    coefficients := none
    coefficient_commitments := none
    proof_of_knowledge := none
    shares := none
    aggregate_share := none
    nonce_pair := none
    nonce_commitment_pair := none
    public_key := none
    repair_shares := none
    aggregate_repair_share := none
    nonce_pair_r_ij := none
    nonce_R_ij_commitments := []
    nonce_R_ij := []
    aggregate_nonce_R_i := none
    challenge_hash_c := none
    participant_a_i := none
    agg_pk := none
    part_sig_s_ij := none }

/-- Witness scaffolding: the all-zero randomness stream. -/
def randZero : ℕ → ℕ := fun _ => 0

/-- Witness scaffolding: the all-zero abstract challenge hash. -/
def chZero : ℤ → Point → Point → ℕ := fun _ _ _ => 0

/-- C7: `_lagrange_coefficient(participant_indexes, x)` raises a `ValueError`
whenever `participant_indexes` contains a duplicate index; and for every
duplicate-free tuple of indexes that contains `self.index`, it returns the
product over `j` in `S` with `j` different from `i` of
`(x - p_j) * (p_i - p_j)⁻¹ mod Q` — skipping exactly one factor, the one where
`j` equals `self.index` — with the inverse computed as
`denominator ^ (Q - 2) mod Q`. -/
theorem lagrange_coefficient_correct (i x : ℤ) (S : List ℤ) :
    (¬ S.Nodup → Participant.lagrange_coefficient i S x = .error .duplicateIndexes)
    ∧ (S.Nodup → i ∈ S →
        Participant.lagrange_coefficient i S x = .ok (lagrangeFormula i S x)
        ∧ (S.filter fun p => p ≠ i).length = S.length - 1) := by
  constructor
  · intro h
    unfold Participant.lagrange_coefficient
    rw [if_neg h]
  · intro h hm
    exact ⟨lagrange_coefficient_eq i x S h, length_filter_ne i S h hm⟩

/-- Witness for C7 at the duplicate input `[1, 1]` and at the duplicate-free
input `[1, 2]` containing the caller's index 1. -/
theorem lagrange_coefficient_correct_witness :
    Participant.lagrange_coefficient 1 [1, 1] 0 = .error .duplicateIndexes
    ∧ (Participant.lagrange_coefficient 1 [1, 2] 0 = .ok (lagrangeFormula 1 [1, 2] 0)
        ∧ (([1, 2] : List ℤ).filter fun p => p ≠ 1).length = ([1, 2] : List ℤ).length - 1) :=
  ⟨(lagrange_coefficient_correct 1 0 [1, 1]).1 (by decide),
   (lagrange_coefficient_correct 1 0 [1, 2]).2 (by decide) (by decide)⟩

/-- C10: for every duplicate-free tuple `participant_indexes` that does not
contain `self.index`, `_lagrange_coefficient` does not raise; it skips no
factor and returns the full product over all `j` in the tuple of
`(x - p_j) * (self.index - p_j)⁻¹ mod Q` — membership of the caller's own
index in the cohort is never checked. -/
theorem lagrange_coefficient_no_self (i x : ℤ) (S : List ℤ)
    (hmem : i ∉ S) (h : S.Nodup) :
    Participant.lagrange_coefficient i S x = .ok (lagrangeFullProduct i S x) := by
  rw [lagrange_coefficient_eq i x S h]
  have hfix : S.filter (fun p => decide (p ≠ i)) = S :=
    List.filter_eq_self.mpr (fun b hb => by
      simp only [decide_eq_true_eq]
      exact fun he => hmem (he ▸ hb))
  unfold lagrangeFormula lagrangeFullProduct
  rw [hfix]

/-- Witness for C10: index 3 is not in the cohort `[1, 2]`. -/
theorem lagrange_coefficient_no_self_witness :
    Participant.lagrange_coefficient 3 [1, 2] 0 = .ok (lagrangeFullProduct 3 [1, 2] 0) :=
  lagrange_coefficient_no_self 3 0 [1, 2] (by decide) (by decide)

/-- C6: for every participant with `aggregate_share` set, after
`generate_repair_shares(repair_participants, index)` returns, `repair_shares`
is a sequence of exactly `threshold` entries (`threshold - 1` random scalars
followed by the closing share), and the sum of its entries modulo `Q` equals
`λ_i(index) * s_i mod Q`, with the Lagrange coefficient given by the spec's
formula for the cohort evaluated at `x = index`. -/
theorem generate_repair_shares_correct (rand : ℕ → ℕ) (P P' : Participant)
    (repair_participants : List ℤ) (index s : ℤ)
    (hthr : 1 ≤ P.threshold)
    (hs : P.aggregate_share = some s)
    (hok : Participant.generate_repair_shares rand P repair_participants index = .ok P') :
    ∃ rs, P'.repair_shares = some rs ∧ (rs.length : ℤ) = P.threshold ∧
      rs.sum % (Q : ℤ)
        = (lagrangeFormula P.index repair_participants index * s) % (Q : ℤ) := by
  unfold Participant.generate_repair_shares at hok
  rw [hs] at hok
  by_cases hnd : repair_participants.Nodup
  · rw [lagrange_coefficient_eq _ _ _ hnd] at hok
    simp only [Except.ok.injEq] at hok
    subst hok
    set lam := lagrangeFormula P.index repair_participants index with hlam
    set randoms := (List.range (P.threshold - 1).toNat).map
      (fun j => ((rand j : ℤ) % (Q : ℤ))) with hrnd
    refine ⟨randoms ++ [(lam * s - randoms.sum) % (Q : ℤ)], rfl, ?_, ?_⟩
    · have hlen : (randoms ++ [(lam * s - randoms.sum) % (Q : ℤ)]).length
          = (P.threshold - 1).toNat + 1 := by
        simp [hrnd]
      rw [hlen]; omega
    · rw [List.sum_append, List.sum_cons, List.sum_nil, add_zero]
      calc (randoms.sum + (lam * s - randoms.sum) % (Q : ℤ)) % (Q : ℤ)
          = (randoms.sum % (Q : ℤ) + (lam * s - randoms.sum) % (Q : ℤ) % (Q : ℤ)) % (Q : ℤ) := by
            rw [Int.add_emod]
        _ = (randoms.sum % (Q : ℤ) + (lam * s - randoms.sum) % (Q : ℤ)) % (Q : ℤ) := by
            rw [Int.emod_emod_of_dvd _ (dvd_refl _)]
        _ = (randoms.sum + (lam * s - randoms.sum)) % (Q : ℤ) := by
            rw [← Int.add_emod]
        _ = (lam * s) % (Q : ℤ) := by congr 1; ring
  · unfold Participant.lagrange_coefficient at hok
    rw [if_neg hnd] at hok
    simp at hok

/-- Witness scaffolding for C6: the participant before and after the call,
with the repair share kept as the symbolic value the code computes. -/
def C6P : Participant := { P0 with aggregate_share := some 1 }

/-- Witness scaffolding for C6: the state after `generate_repair_shares`. -/
def C6P' : Participant :=
  { P0 with
      aggregate_share := some 1
      repair_shares :=
        some ([] ++ [((1 * powMod 1 (Q - 2) (Q : ℤ)) % (Q : ℤ) * 1 - ([] : List ℤ).sum)
          % (Q : ℤ)]) }

/-- Witness for C6: threshold 1, aggregate share 1, repair cohort `[1]`, lost
index 2. -/
theorem generate_repair_shares_correct_witness :
    ∃ rs, C6P'.repair_shares = some rs
      ∧ (rs.length : ℤ) = C6P.threshold
      ∧ rs.sum % (Q : ℤ) = (lagrangeFormula C6P.index [1] 2 * 1) % (Q : ℤ) :=
  generate_repair_shares_correct randZero C6P C6P' [1] 2 1
    (by decide) rfl rfl

theorem zmod_schnorr (k a0 : ℤ) (c : ℕ) :
    ptMul ((k + a0 * (c : ℤ)) % (Q : ℤ)) G + ptMul ((Q : ℤ) - (c : ℤ)) (ptMul a0 G)
      = ptMul k G := by
  unfold ptMul G
  push_cast [ZMod.intCast_mod, ZMod.natCast_self]
  ring

theorem ptMul_G_inj (a b : ℤ) (h : ptMul a G = ptMul b G) :
    a % (Q : ℤ) = b % (Q : ℤ) := by
  unfold ptMul G at h
  rw [mul_one, mul_one] at h
  exact (ZMod.intCast_eq_intCast_iff' a b Q).mp h

/-- C1: proof-of-knowledge round trip.  For every participant with initialized
coefficients, after `_compute_proof_of_knowledge` stores the pair `(R_i, μ_i)`,
`verify_proof_of_knowledge((R_i, μ_i), a_{i,0} * G, self.index)` returns true;
and for any integer `μ'` that differs from `μ_i` as a residue modulo `Q`,
`verify_proof_of_knowledge((R_i, μ'), a_{i,0} * G, self.index)` returns
false. -/
theorem proof_of_knowledge_roundtrip
    (challenge : ℤ → Point → Point → ℕ) (P P' : Participant)
    (a0 : ℤ) (rest : List ℤ) (r : ℕ)
    (hc : P.coefficients = some (a0 :: rest))
    (hok : Participant.compute_proof_of_knowledge challenge r P = .ok P')
    (R : Point) (mu : ℤ)
    (hp : P'.proof_of_knowledge = some (R, mu)) :
    Participant.verify_proof_of_knowledge challenge (R, mu) (ptMul a0 G) P.index = true
    ∧ ∀ mu' : ℤ, mu' % (Q : ℤ) ≠ mu % (Q : ℤ) →
        Participant.verify_proof_of_knowledge challenge (R, mu') (ptMul a0 G) P.index
          = false := by
  unfold Participant.compute_proof_of_knowledge at hok
  rw [hc] at hok
  simp only [Except.ok.injEq] at hok
  subst hok
  simp only [Option.some.injEq, Prod.mk.injEq] at hp
  obtain ⟨rfl, rfl⟩ := hp
  constructor
  · simp only [Participant.verify_proof_of_knowledge, decide_eq_true_eq]
    exact (zmod_schnorr _ a0 _).symm
  · intro mu' hne
    simp only [Participant.verify_proof_of_knowledge, decide_eq_false_iff_not]
    intro heq
    apply hne
    have hz := zmod_schnorr (((r : ℕ) : ℤ) % (Q : ℤ)) a0
      (challenge P.index (ptMul a0 G) (ptMul (((r : ℕ) : ℤ) % (Q : ℤ)) G))
    have hcancel : ptMul mu' G = ptMul ((((r : ℕ) : ℤ) % (Q : ℤ) + a0 *
        ((challenge P.index (ptMul a0 G) (ptMul (((r : ℕ) : ℤ) % (Q : ℤ)) G) : ℕ) : ℤ))
          % (Q : ℤ)) G :=
      (add_right_cancel (hz.trans heq)).symm
    exact ptMul_G_inj mu' _ hcancel

/-- Witness scaffolding for C1: a participant with the single coefficient 1,
before and after the proof-of-knowledge computation with raw nonce draw 5. -/
def C1P : Participant := { P0 with coefficients := some [1] }

/-- Witness scaffolding for C1: the state after the computation. -/
def C1P' : Participant := { C1P with proof_of_knowledge := some ((5 : Point), 5) }

/-- Witness for C1 at coefficient 1, nonce 5 and the all-zero challenge. -/
theorem proof_of_knowledge_roundtrip_witness :
    Participant.verify_proof_of_knowledge chZero ((5 : Point), 5) (ptMul 1 G) 1 = true
    ∧ Participant.verify_proof_of_knowledge chZero ((5 : Point), 6) (ptMul 1 G) 1
      = false :=
  ⟨(proof_of_knowledge_roundtrip chZero C1P C1P' 1 [] 5 rfl (by decide)
      (5 : Point) 5 rfl).1,
   (proof_of_knowledge_roundtrip chZero C1P C1P' 1 [] 5 rfl (by decide)
      (5 : Point) 5 rfl).2 6 (by decide)⟩

theorem commitments_cons (P : Participant) (c : ℤ) (cs : List ℤ)
    (h : P.coefficients = some (c :: cs)) :
    Participant.compute_coefficient_commitments P
      = .ok { P with coefficient_commitments := some ((c :: cs).map fun a => ptMul a G) } := by
  unfold Participant.compute_coefficient_commitments
  rw [h]

theorem compute_pok_inv (challenge : ℤ → Point → Point → ℕ) (r : ℕ) (P P' : Participant)
    (hok : Participant.compute_proof_of_knowledge challenge r P = .ok P') :
    ∃ c cs, P.coefficients = some (c :: cs)
      ∧ P' = { P with
          proof_of_knowledge := some (ptMul (((r : ℕ) : ℤ) % (Q : ℤ)) G,
            ((((r : ℕ) : ℤ) % (Q : ℤ)) + c *
              ((challenge P.index (ptMul c G) (ptMul (((r : ℕ) : ℤ) % (Q : ℤ)) G) : ℕ) : ℤ))
              % (Q : ℤ)) } := by
  unfold Participant.compute_proof_of_knowledge at hok
  split at hok
  · exact absurd hok (by simp)
  · exact absurd hok (by simp)
  · rename_i secret restCoeffs heq
    simp only [Except.ok.injEq] at hok
    exact ⟨secret, restCoeffs, heq, hok.symm⟩

theorem commitments_inv (P P' : Participant)
    (hok : Participant.compute_coefficient_commitments P = .ok P') :
    ∃ c cs, P.coefficients = some (c :: cs)
      ∧ P' = { P with
          coefficient_commitments := some ((c :: cs).map fun a => ptMul a G) } := by
  unfold Participant.compute_coefficient_commitments at hok
  split at hok
  · exact absurd hok (by simp)
  · exact absurd hok (by simp)
  · rename_i c cs heq
    simp only [Except.ok.injEq] at hok
    exact ⟨c, cs, heq, hok.symm⟩

/-- C3 (amended): after `init_keygen` and `init_refresh` return, coefficients
and coefficient commitments both exist and have length equal to the stored
threshold; after `init_threshold_increase(new_t)` returns, they both have
length `new_t - 1`, one less than the updated stored threshold. -/
theorem init_lengths (rand : ℕ → ℕ) (r : ℕ) (challenge : ℤ → Point → Point → ℕ)
    (P : Participant) (new_t : ℤ) :
    (∀ P', Participant.init_keygen rand r challenge P = .ok P' →
      ∃ cs ks, P'.coefficients = some cs ∧ P'.coefficient_commitments = some ks
        ∧ ks.length = cs.length ∧ (cs.length : ℤ) = P'.threshold)
    ∧ (1 ≤ P.threshold → ∀ P', Participant.init_refresh rand P = .ok P' →
      ∃ cs ks, P'.coefficients = some cs ∧ P'.coefficient_commitments = some ks
        ∧ ks.length = cs.length ∧ (cs.length : ℤ) = P'.threshold)
    ∧ (∀ P', Participant.init_threshold_increase rand r challenge new_t P = .ok P' →
      ∃ cs ks, P'.coefficients = some cs ∧ P'.coefficient_commitments = some ks
        ∧ ks.length = cs.length ∧ (cs.length : ℤ) = P'.threshold - 1) := by
  refine ⟨?_, ?_, ?_⟩
  · intro P' hok
    unfold Participant.init_keygen at hok
    split at hok
    · exact absurd hok (by simp)
    · rename_i P2 heq2
      obtain ⟨c, cs, hcs, rfl⟩ := compute_pok_inv challenge r _ _ heq2
      obtain ⟨c2, cs2, hcs2, rfl⟩ := commitments_inv _ _ hok
      have hcc : some (c :: cs) = some (c2 :: cs2) := hcs.symm.trans hcs2
      simp only [Option.some.injEq, List.cons.injEq] at hcc
      obtain ⟨rfl, rfl⟩ := hcc
      refine ⟨c :: cs, (c :: cs).map (fun a => ptMul a G), hcs, rfl, by simp, ?_⟩
      have hmap : some ((List.range P.threshold.toNat).map
          fun j => ((rand j : ℤ) % (Q : ℤ))) = some (c :: cs) := hcs
      have hlen := congrArg List.length (Option.some.inj hmap)
      simp only [List.length_map, List.length_range, List.length_cons] at hlen
      have hgoal : (((c :: cs).length : ℕ) : ℤ) = P.threshold := by
        simp only [List.length_cons]
        omega
      exact hgoal
  · intro hthr P' hok
    unfold Participant.init_refresh at hok
    have hc1 : (Participant.generate_refresh_polynomial rand P).coefficients
        = some (0 :: (List.range (P.threshold - 1).toNat).map
            fun j => ((rand j : ℤ) % (Q : ℤ))) := rfl
    rw [commitments_cons _ 0 _ hc1] at hok
    simp only [Except.ok.injEq] at hok
    subst hok
    refine ⟨_, _, rfl, rfl, by simp, ?_⟩
    have hgoal : (((0 :: (List.range (P.threshold - 1).toNat).map
        fun j => ((rand j : ℤ) % (Q : ℤ))).length : ℕ) : ℤ) = P.threshold := by
      simp only [List.length_cons, List.length_map, List.length_range]
      omega
    exact hgoal
  · intro P' hok
    unfold Participant.init_threshold_increase at hok
    split at hok
    · exact absurd hok (by simp)
    · split at hok
      · exact absurd hok (by simp)
      · rename_i P2 heq2
        obtain ⟨c, cs, hcs, rfl⟩ := compute_pok_inv challenge r _ _ heq2
        split at hok
        · exact absurd hok (by simp)
        · rename_i P3 heq3
          obtain ⟨c2, cs2, hcs2, rfl⟩ := commitments_inv _ _ heq3
          simp only [Except.ok.injEq] at hok
          subst hok
          have hcc : some (c :: cs) = some (c2 :: cs2) := hcs.symm.trans hcs2
          simp only [Option.some.injEq, List.cons.injEq] at hcc
          obtain ⟨rfl, rfl⟩ := hcc
          refine ⟨c :: cs, (c :: cs).map (fun a => ptMul a G), hcs, rfl, by simp, ?_⟩
          have hmap : some ((List.range (new_t - 1).toNat).map
              fun j => ((rand j : ℤ) % (Q : ℤ))) = some (c :: cs) := hcs
          have hlen := congrArg List.length (Option.some.inj hmap)
          simp only [List.length_map, List.length_range, List.length_cons] at hlen
          have hgoal : (((c :: cs).length : ℕ) : ℤ) = new_t - 1 := by
            simp only [List.length_cons]
            omega
          exact hgoal

/-- Witness scaffolding for C3: result state of `init_keygen` on `P0`. -/
def C3K : Participant :=
  { P0 with
      coefficients := some [0]
      proof_of_knowledge := some ((0 : Point), 0)
      coefficient_commitments := some [(0 : Point)] }

/-- Witness scaffolding for C3: result state of `init_refresh` on `P0`. -/
def C3R : Participant :=
  { P0 with coefficients := some [0], coefficient_commitments := some [(0 : Point)] }

/-- Witness scaffolding for C3: result state of `init_threshold_increase 2` on
`P0`. -/
def C3T : Participant :=
  { P0 with
      threshold := 2
      coefficients := some [0]
      proof_of_knowledge := some ((0 : Point), 0)
      coefficient_commitments := some [(0 : Point)] }

/-- Counterexample to C3 as stated: on a participant with threshold 1,
`init_threshold_increase(2)` returns a state whose coefficients and
commitments have length 1 while the stored threshold is 2. -/
theorem init_lengths_counterexample :
    Participant.init_threshold_increase randZero 0 chZero 2 P0 = .ok C3T
    ∧ C3T.coefficients = some [0]
    ∧ C3T.coefficient_commitments = some [(0 : Point)]
    ∧ C3T.threshold = 2
    ∧ ¬((([0] : List ℤ).length : ℤ) = C3T.threshold) := by decide

/-- Witness for the amended C3 on `P0` (threshold 1, new threshold 2). -/
theorem init_lengths_witness :
    (∃ cs ks, C3K.coefficients = some cs ∧ C3K.coefficient_commitments = some ks
      ∧ ks.length = cs.length ∧ (cs.length : ℤ) = C3K.threshold)
    ∧ (∃ cs ks, C3R.coefficients = some cs ∧ C3R.coefficient_commitments = some ks
      ∧ ks.length = cs.length ∧ (cs.length : ℤ) = C3R.threshold)
    ∧ (∃ cs ks, C3T.coefficients = some cs ∧ C3T.coefficient_commitments = some ks
      ∧ ks.length = cs.length ∧ (cs.length : ℤ) = C3T.threshold - 1) :=
  ⟨(init_lengths randZero 0 chZero P0 2).1 C3K (by decide),
   (init_lengths randZero 0 chZero P0 2).2.1 (by decide) C3R (by decide),
   (init_lengths randZero 0 chZero P0 2).2.2 C3T (by decide)⟩

/-- C4 (amended): for every participant whose shares and aggregate share are
set, after a successful `increase_threshold(other_shares)` the stored
aggregate share equals `s_i + ((δ_i * index) mod Q)` with
`δ_i = (shares[index-1] + Σ other_shares) mod Q`; that value is congruent to
`(s_i + δ_i * index) mod Q` but is not itself reduced modulo `Q`. -/
theorem increase_threshold_aggregate (P P' : Participant) (other_shares : List ℤ)
    (sh : List ℤ) (s v : ℤ)
    (hsh : P.shares = some sh)
    (hs : P.aggregate_share = some s)
    (hv : pyGet sh (P.index - 1) = .ok v)
    (hok : Participant.increase_threshold P other_shares = .ok P') :
    P'.aggregate_share
        = some (s + (((v + other_shares.sum) % (Q : ℤ)) * P.index) % (Q : ℤ))
    ∧ (s + (((v + other_shares.sum) % (Q : ℤ)) * P.index) % (Q : ℤ)) % (Q : ℤ)
        = (s + ((v + other_shares.sum) % (Q : ℤ)) * P.index) % (Q : ℤ) := by
  unfold Participant.increase_threshold at hok
  cases sh with
  | nil =>
    exfalso
    unfold pyGet at hv
    split at hv
    · rename_i h
      simp only [List.length_nil, Nat.cast_zero] at h
      omega
    · split at hv
      · rename_i h'
        simp only [List.length_nil, Nat.cast_zero] at h'
        omega
      · exact absurd hv (by simp)
  | cons a t =>
    rw [hsh, hs] at hok
    simp only [] at hok
    split at hok
    · exact absurd hok (by simp)
    · rw [hv] at hok
      simp only [Except.ok.injEq] at hok
      subst hok
      refine ⟨rfl, ?_⟩
      calc (s + (((v + other_shares.sum) % (Q : ℤ)) * P.index) % (Q : ℤ)) % (Q : ℤ)
          = (s % (Q : ℤ) + (((v + other_shares.sum) % (Q : ℤ)) * P.index) % (Q : ℤ)
              % (Q : ℤ)) % (Q : ℤ) := by rw [Int.add_emod]
        _ = (s % (Q : ℤ) + (((v + other_shares.sum) % (Q : ℤ)) * P.index) % (Q : ℤ))
              % (Q : ℤ) := by rw [Int.emod_emod_of_dvd _ (dvd_refl _)]
        _ = (s + ((v + other_shares.sum) % (Q : ℤ)) * P.index) % (Q : ℤ) := by
              rw [← Int.add_emod]

/-- Witness scaffolding for C4: shares `[1]`, aggregate share 1, index 1. -/
def C4W : Participant := { P0 with shares := some [1], aggregate_share := some 1 }

/-- Witness scaffolding for C4: the state after `increase_threshold([])`. -/
def C4W' : Participant := { P0 with shares := some [1], aggregate_share := some 2 }

/-- Witness for the amended C4. -/
theorem increase_threshold_aggregate_witness :
    C4W'.aggregate_share
        = some (1 + (((1 + ([] : List ℤ).sum) % (Q : ℤ)) * C4W.index) % (Q : ℤ))
    ∧ (1 + (((1 + ([] : List ℤ).sum) % (Q : ℤ)) * C4W.index) % (Q : ℤ)) % (Q : ℤ)
        = (1 + ((1 + ([] : List ℤ).sum) % (Q : ℤ)) * C4W.index) % (Q : ℤ) :=
  increase_threshold_aggregate C4W C4W' [] [1] 1 1 rfl rfl (by decide) (by decide)

/-- Counterexample scaffolding for C4: aggregate share `Q - 1`. -/
def C4X : Participant :=
  { P0 with shares := some [2], aggregate_share := some ((Q : ℤ) - 1) }

/-- Counterexample scaffolding for C4: the state after `increase_threshold([])`,
holding the unreduced value `Q + 1`. -/
def C4X' : Participant :=
  { P0 with shares := some [2], aggregate_share := some ((Q : ℤ) + 1) }

/-- Counterexample to C4 as stated: with aggregate share `Q - 1`, shares `[2]`
and index 1, `increase_threshold([])` stores `Q + 1`, which is not the reduced
residue `(s_i + δ_i * index) mod Q = 1` and does not lie in `[0, Q)`. -/
theorem increase_threshold_aggregate_counterexample :
    Participant.increase_threshold C4X [] = .ok C4X'
    ∧ C4X'.aggregate_share = some ((Q : ℤ) + 1)
    ∧ ((Q : ℤ) + 1) ≠ (((Q : ℤ) - 1) + ((2 + 0) % (Q : ℤ)) * 1) % (Q : ℤ)
    ∧ ¬((Q : ℤ) + 1 < (Q : ℤ)) := by decide

/-- Input exhibiting the C5 code bug: shares set and aggregate share set to the
field element 0. -/
def C5X : Participant := { P0 with shares := some [1], aggregate_share := some 0 }

/-- C5: the code raises the "aggregate share has not been initialized"
precondition error on `increase_threshold` although the aggregate share is
initialized (to the field element 0), because the source tests Python
falsiness (`if not self.aggregate_share`) instead of `is None`. -/
theorem increase_threshold_zero_share_raises :
    C5X.shares = some [1] ∧ C5X.aggregate_share = some 0
    ∧ Participant.increase_threshold C5X [] = .error .aggregateShareUninit := by decide

/-- C2: `sign` raises a precondition `ValueError` exactly when one of
`nonce_pair`, `public_key`, `aggregate_share` is unset, or the public key or
the group commitment is the identity; before the partial signature is
computed it raises in no other precondition case (the only other possible
failure, duplicate signer indices, is an argument-validation error). -/
theorem sign_precondition_iff {Msg : Type}
    (gc : Msg → List (Point × Point) → List ℤ → Point)
    (ch : Point → Point → Msg → ℕ)
    (bv : ℤ → Msg → List (Point × Point) → List ℤ → ℤ)
    (yOdd : Point → Bool)
    (P : Participant) (message : Msg)
    (ncp : List (Point × Point)) (pidx : List ℤ) :
    (∃ e, Participant.sign gc ch bv yOdd P message ncp pidx = .error e
        ∧ e.isPrecond = true)
    ↔ (P.nonce_pair = none ∨ P.public_key = none ∨ P.public_key = some 0
        ∨ P.aggregate_share = none ∨ gc message ncp pidx = 0) := by
  unfold Participant.sign
  rcases hnp : P.nonce_pair with _ | ⟨d, e⟩
  · simp [Err.isPrecond]
  · rcases hpk : P.public_key with _ | Y
    · simp [Err.isPrecond]
    · by_cases hY : Y = 0
      · simp [Err.isPrecond, hY]
      · rcases has : P.aggregate_share with _ | s
        · simp [Err.isPrecond, hY]
        · by_cases hR : gc message ncp pidx = 0
          · simp [Err.isPrecond, hY, hR]
          · rcases hlg : Participant.lagrange_coefficient P.index pidx 0 with e' | lam
            · have he' : e' = Err.duplicateIndexes := by
                unfold Participant.lagrange_coefficient at hlg
                split at hlg
                · exact absurd hlg (by simp)
                · simp only [Except.error.injEq] at hlg
                  exact hlg.symm
              subst he'
              simp [Err.isPrecond, hY, hR]
            · simp [Err.isPrecond, hY, hR]

/-- C8: when `sign` returns a partial signature, every stored attribute of the
participant is exactly as before the call; the Y- and R-parity negations act
only on the local copies of the aggregate share and the nonce pair. -/
theorem sign_frame {Msg : Type}
    (gc : Msg → List (Point × Point) → List ℤ → Point)
    (ch : Point → Point → Msg → ℕ)
    (bv : ℤ → Msg → List (Point × Point) → List ℤ → ℤ)
    (yOdd : Point → Bool)
    (P P' : Participant) (message : Msg)
    (ncp : List (Point × Point)) (pidx : List ℤ) (z : ℤ)
    (hok : Participant.sign gc ch bv yOdd P message ncp pidx = .ok (z, P')) :
    P' = P := by
  unfold Participant.sign at hok
  simp only [] at hok
  repeat' split at hok
  all_goals
    first
    | exact Except.noConfusion hok
    | (simp only [Except.ok.injEq, Prod.mk.injEq] at hok
       exact hok.2.symm)

/-- Witness scaffolding for C8: degenerate stand-ins for the aggregator hash
collaborators over the unit message type, a group commitment fixed at a
non-identity point and even parity everywhere. -/
def gcOne : Unit → List (Point × Point) → List ℤ → Point := fun _ _ _ => 1

/-- Witness scaffolding for C8: the all-zero BIP340 challenge. -/
def chUnitZero : Point → Point → Unit → ℕ := fun _ _ _ => 0

/-- Witness scaffolding for C8: the all-zero binding value. -/
def bvZero : ℤ → Unit → List (Point × Point) → List ℤ → ℤ := fun _ _ _ _ => 0

/-- Witness scaffolding for C8: the even-parity test. -/
def yOddFalse : Point → Bool := fun _ => false

/-- Witness scaffolding for C8: a participant ready to sign. -/
def C8P : Participant :=
  { P0 with nonce_pair := some (1, 1), public_key := some 1, aggregate_share := some 1 }

/-- Witness scaffolding for C8: the partial signature the code computes,
kept in the symbolic form produced by the source expressions. -/
def C8z : ℤ :=
  (1 + 1 * 0 + ((1 * powMod 1 (Q - 2) (Q : ℤ)) % (Q : ℤ)) * 1 * ((0 : ℕ) : ℤ)) % (Q : ℤ)

/-- Witness for C8: the signing call returns and the state is unchanged. -/
theorem sign_frame_witness :
    Participant.sign gcOne chUnitZero bvZero yOddFalse C8P () [] [1] = .ok (C8z, C8P)
    ∧ C8P = C8P :=
  ⟨rfl, sign_frame gcOne chUnitZero bvZero yOddFalse C8P C8P () [] [1] C8z rfl⟩

/-- C9 (amended): the constructor validates only that its arguments are
integers; for integer arguments it always succeeds — no range validation is
performed — and stores the three arguments verbatim. -/
theorem init_no_range_validation (index threshold participants : ℤ) :
    ∃ p, Participant.init index threshold participants = .ok p
      ∧ p.index = index ∧ p.threshold = threshold ∧ p.participants = participants :=
  ⟨_, rfl, rfl, rfl, rfl⟩

/-- Counterexample to C9 as stated: `Participant(5, 1, 2)` — index 5 outside
`[1, 2]` — raises no error. -/
theorem init_no_range_validation_counterexample :
    (∃ p, Participant.init 5 1 2 = .ok p ∧ p.index = 5)
    ∧ ¬(1 ≤ (5 : ℤ) ∧ (5 : ℤ) ≤ 2) :=
  ⟨⟨_, rfl, rfl⟩, by decide⟩

end Frost
